import Mathlib

/-!
# gocache: a shallow embedding of `cache.go`

The cache of `cache.go` is a Go map guarded by one mutex, a block of operation
counters, and one goroutine per `Set` with a positive TTL that sleeps on a timer
and then calls `Delete`.

Modelling decisions.

* `Get`, `Set`, `Has` and `Delete` hold `c.lock` for their whole body, so each of
  them is one atomic transition of the state; a method that mutates the receiver
  returns the new receiver as the first component of its result.
* A Go `string` is a sequence of bytes; `[]byte(s)` and `string(b)` copy the bytes.
* `map[string]string` is a finite map with unique keys: `AList`.
* `uint` is taken on a 64-bit target: counters are naturals, every increment and
  sum is reduced modulo `2 ^ 64`.
* `time.Duration` is a signed count of nanoseconds; only its sign is inspected.
* Real time is abstracted: a goroutine started by `Set` is recorded as a pending
  `Removal`; at any later point it may run its `c.Delete(key)` (event `fire`).
-/

namespace GoCache

/-! ## Data model -/

/-- Go `string`: an immutable sequence of bytes. -/
structure GoString where
  bytes : List UInt8
deriving DecidableEq, Repr

/-- A Go string literal; Go source text is UTF-8. -/
def GoString.lit (s : String) : GoString := ⟨s.toUTF8.data.toList⟩

/-- The conversion `string(b)` of a byte slice. -/
def GoString.ofBytes (b : List UInt8) : GoString := ⟨b⟩

/-- Go `time.Duration`. -/
abbrev Duration := Int

/-- Go `error` as produced by `fmt.Errorf`: the message. -/
abbrev GoError := String

/-- Number of values of Go `uint` (64-bit target). -/
def uintSize : Nat := 2 ^ 64

/-- Go `c.stats.X++` on a `uint`. -/
def uintIncr (n : Nat) : Nat := (n + 1) % uintSize

/-- Go `a + b` on `uint`. -/
def uintAdd (a b : Nat) : Nat := (a + b) % uintSize

/-- `type CacheStats struct`. -/
structure CacheStats where
  TotalOperations : Nat
  NumGets : Nat
  NumSets : Nat
  NumHasChecks : Nat
  NumDeletes : Nat
deriving DecidableEq, Repr

/-- `type Cache struct`: the map and the counters (the mutex is the atomicity of
the four locking methods). -/
structure Cache where
  data : AList (fun _ : GoString => GoString)
  stats : CacheStats

/-- The goroutine started by `Set` when `ttl > 0`: it waits for `ttl` and then
calls `c.Delete(key)`. -/
structure Removal where
  key : GoString
  ttl : Duration
deriving DecidableEq, Repr

/-! ## Operations of `cache.go` -/

/-- `func New() *Cache`. -/
def New : Cache :=
  { data := ∅, stats := ⟨0, 0, 0, 0, 0⟩ }

/-- The error of `Get` on a miss. -/
def errNoElement : GoError := "no element in cache at given key"

/-- `func (c *Cache) Get(key string) ([]byte, error)`; a `none` byte slice is Go's
nil slice, a `none` error is Go's nil error. -/
def Cache.Get (c : Cache) (key : GoString) : Cache × Option (List UInt8) × Option GoError :=
  let c1 : Cache := { c with stats := { c.stats with NumGets := uintIncr c.stats.NumGets } }
  match c1.data.lookup key with
  | some value => (c1, some value.bytes, none)
  | none => (c1, none, some errNoElement)

/-- `func (c *Cache) Set(key, value string, ttl time.Duration)`; the second
component is the goroutine started, if any. -/
def Cache.Set (c : Cache) (key value : GoString) (ttl : Duration) : Cache × Option Removal :=
  let c1 : Cache :=
    { data := c.data.insert key value
      stats := { c.stats with NumSets := uintIncr c.stats.NumSets } }
  if ttl > 0 then (c1, some ⟨key, ttl⟩) else (c1, none)

/-- `func (c *Cache) Has(key string) bool`. -/
def Cache.Has (c : Cache) (key : GoString) : Cache × Bool :=
  let c1 : Cache := { c with stats := { c.stats with NumHasChecks := uintIncr c.stats.NumHasChecks } }
  (c1, (c1.data.lookup key).isSome)

/-- `func (c *Cache) Delete(key string)`. -/
def Cache.Delete (c : Cache) (key : GoString) : Cache :=
  { data := c.data.erase key
    stats := { c.stats with NumDeletes := uintIncr c.stats.NumDeletes } }

/-- `func (c *Cache) Size() int`. -/
def Cache.Size (c : Cache) : Nat :=
  c.data.entries.length

/-- `func (c *Cache) GetStats() CacheStats`: stores the total, returns the block. -/
def Cache.GetStats (c : Cache) : Cache × CacheStats :=
  let total :=
    uintAdd (uintAdd (uintAdd c.stats.NumGets c.stats.NumSets) c.stats.NumHasChecks)
      c.stats.NumDeletes
  let c1 : Cache := { c with stats := { c.stats with TotalOperations := total } }
  (c1, c1.stats)

/-! ## The cache together with its timer goroutines -/

/-- A cache and the goroutines started by `Set` that have not yet called `Delete`. -/
structure System where
  cache : Cache
  pending : List Removal

/-- A fresh cache: nothing stored, no goroutine started. -/
def System.init : System :=
  { cache := New, pending := [] }

/-- One atomic step: a call of a method by some caller, or a pending goroutine
whose timer has expired running its `c.Delete(key)`. -/
inductive Event where
  | get (key : GoString)
  | set (key value : GoString) (ttl : Duration)
  | has (key : GoString)
  | delete (key : GoString)
  | size
  | getStats
  | fire (r : Removal)
deriving DecidableEq, Repr

/-- Effect of one event. A `fire r` for a goroutine that is not pending changes
nothing (there is no such goroutine to run). -/
def System.step (s : System) : Event → System
  | .get key => { s with cache := (s.cache.Get key).1 }
  | .set key value ttl =>
      { cache := (s.cache.Set key value ttl).1
        pending := s.pending ++ (s.cache.Set key value ttl).2.toList }
  | .has key => { s with cache := (s.cache.Has key).1 }
  | .delete key => { s with cache := s.cache.Delete key }
  | .size => s
  | .getStats => { s with cache := s.cache.GetStats.1 }
  | .fire r =>
      if r ∈ s.pending then
        { cache := s.cache.Delete r.key, pending := s.pending.erase r }
      else s

/-- Effect of a sequence of events, oldest first. -/
def System.run (s : System) : List Event → System
  | [] => s
  | e :: es => (s.step e).run es

/-- The event is a `Set` on `key`. -/
def Event.setsKey (key : GoString) : Event → Bool
  | .set k _ _ => decide (k = key)
  | _ => false

/-- The event is a `Delete` call on `key`. -/
def Event.deletesKey (key : GoString) : Event → Bool
  | .delete k => decide (k = key)
  | _ => false

/-- The event is the firing of a removal scheduled for `key`. -/
def Event.firesKey (key : GoString) : Event → Bool
  | .fire r => decide (r.key = key)
  | _ => false

/-- Every `fire` in the sequence is of a goroutine pending at that point. -/
def System.Schedule (s : System) : List Event → Bool
  | [] => true
  | e :: es =>
      (match e with
        | .fire r => decide (r ∈ s.pending)
        | _ => true) && (s.step e).Schedule es

/-- Number of `Get` calls in a sequence of events. -/
def countGets (es : List Event) : Nat :=
  es.countP (fun e => match e with | .get _ => true | _ => false)

/-- Number of `Set` calls in a sequence of events. -/
def countSets (es : List Event) : Nat :=
  es.countP (fun e => match e with | .set _ _ _ => true | _ => false)

/-- Number of `Has` calls in a sequence of events. -/
def countHas (es : List Event) : Nat :=
  es.countP (fun e => match e with | .has _ => true | _ => false)

/-- Number of `Delete` calls in a sequence of events. -/
def countDeletes (es : List Event) : Nat :=
  es.countP (fun e => match e with | .delete _ => true | _ => false)

/-- Number of removal firings in a sequence of events. -/
def countFires (es : List Event) : Nat :=
  es.countP (fun e => match e with | .fire _ => true | _ => false)

/-- Value written by the last `Set` on `key` in a sequence of events, if there is one. -/
def lastSetValue (key : GoString) : List Event → Option GoString
  | [] => none
  | e :: es =>
      match lastSetValue key es with
      | some v => some v
      | none =>
          match e with
          | .set k v _ => if k = key then some v else none
          | _ => none

/-! ## The request worker of `benchmark/main.go` -/

/-- Go `rand.Intn(n)` for `n > 0`: a value of the half-open interval `[0, n)`,
determined by the output `draw` of the generator. -/
def randIntn (n : Nat) (draw : Nat) : Nat := draw % n

/-- The slice `req` of `launchRequests`. -/
def req : List String := ["GET", "HAS", "DELETE"]

/-- The constant `numRequests` of `launchRequests`. -/
def numRequests : Nat := 3

/-- One iteration of the loop of `launchRequests` on key `keyStr`: the call made on the
cache, or `none` when the iteration ends in a Go panic. -/
def launchRequests (keyStr : GoString) (draw : Nat) : Option Event :=
  let requestIndex := randIntn (numRequests - 1) draw
  match req[requestIndex]? with
  | some "GET" => some (.get keyStr)
  | some "HAS" => some (.has keyStr)
  | some "DELETE" => some (.delete keyStr)
  | _ => none

/-! ## Basic facts about the operations -/

theorem Get_of_lookup_none (c : Cache) (key : GoString) (h : c.data.lookup key = none) :
    (c.Get key).2 = (none, some errNoElement) := by
  simp [Cache.Get, h]

theorem Get_of_lookup_some (c : Cache) (key value : GoString)
    (h : c.data.lookup key = some value) :
    (c.Get key).2 = (some value.bytes, none) := by
  simp [Cache.Get, h]

theorem Get_data (c : Cache) (key : GoString) : (c.Get key).1.data = c.data := by
  cases h : c.data.lookup key <;> simp [Cache.Get, h]

theorem Has_data (c : Cache) (key : GoString) : (c.Has key).1.data = c.data := rfl

theorem Has_eq (c : Cache) (key : GoString) :
    (c.Has key).2 = (c.data.lookup key).isSome := rfl

theorem GetStats_data (c : Cache) : c.GetStats.1.data = c.data := rfl

theorem Set_data (c : Cache) (key value : GoString) (ttl : Duration) :
    (c.Set key value ttl).1.data = c.data.insert key value := by
  by_cases h : ttl > 0 <;> simp [Cache.Set, h]

theorem Delete_data (c : Cache) (key : GoString) :
    (c.Delete key).data = c.data.erase key := rfl

theorem lookup_Delete_self (c : Cache) (key : GoString) :
    (c.Delete key).data.lookup key = none := by
  simp [Delete_data]

theorem lookup_Delete_of_none (c : Cache) (key k : GoString)
    (h : c.data.lookup key = none) : (c.Delete k).data.lookup key = none := by
  rw [Delete_data]
  by_cases hk : key = k
  · subst hk; simp
  · rw [AList.lookup_erase_ne hk]; exact h

/-! ## Facts about steps and runs -/

theorem run_append (s : System) (es fs : List Event) :
    s.run (es ++ fs) = (s.run es).run fs := by
  induction es generalizing s with
  | nil => rfl
  | cons e es ih => simp [System.run, ih]

theorem step_fire_of_mem (s : System) (r : Removal) (h : r ∈ s.pending) :
    s.step (.fire r) = { cache := s.cache.Delete r.key, pending := s.pending.erase r } := by
  simp [System.step, h]

theorem step_fire_of_not_mem (s : System) (r : Removal) (h : r ∉ s.pending) :
    s.step (.fire r) = s := by
  simp [System.step, h]

theorem step_set_pending_pos (s : System) (key value : GoString) (ttl : Duration)
    (h : 0 < ttl) :
    (s.step (.set key value ttl)).pending = s.pending ++ [⟨key, ttl⟩] := by
  simp [System.step, Cache.Set, h]

theorem step_set_pending_nonpos (s : System) (key value : GoString) (ttl : Duration)
    (h : ttl ≤ 0) :
    (s.step (.set key value ttl)).pending = s.pending := by
  have h1 : ¬ ttl > 0 := not_lt.mpr h
  simp [System.step, Cache.Set, h1]

theorem step_set_lookup (s : System) (key value : GoString) (ttl : Duration) :
    (s.step (.set key value ttl)).cache.data.lookup key = some value := by
  simp [System.step, Set_data]

/-- A key that is absent stays absent across every event that is not a `Set` on it. -/
theorem step_absent (s : System) (key : GoString) (e : Event)
    (he : e.setsKey key = false) (h : s.cache.data.lookup key = none) :
    (s.step e).cache.data.lookup key = none := by
  cases e with
  | get k => simpa [System.step, Get_data] using h
  | set k v t =>
      have hk : key ≠ k := by
        intro hk
        simp [Event.setsKey, hk] at he
      simp only [System.step, Set_data]
      rw [AList.lookup_insert_ne hk]
      exact h
  | has k => simpa [System.step, Has_data] using h
  | delete k => exact lookup_Delete_of_none s.cache key k h
  | size => exact h
  | getStats => simpa [System.step, GetStats_data] using h
  | fire r =>
      by_cases hr : r ∈ s.pending
      · rw [step_fire_of_mem s r hr]
        exact lookup_Delete_of_none s.cache key r.key h
      · rw [step_fire_of_not_mem s r hr]
        exact h

theorem run_absent (s : System) (key : GoString) (es : List Event)
    (hes : ∀ e ∈ es, e.setsKey key = false) (h : s.cache.data.lookup key = none) :
    (s.run es).cache.data.lookup key = none := by
  induction es generalizing s with
  | nil => exact h
  | cons e es ih =>
      have he := hes e (List.mem_cons_self e es)
      exact ih (s.step e) (fun x hx => hes x (List.mem_cons_of_mem e hx))
        (step_absent s key e he h)

/-- While no `Set` on its key happens, a removal is still pending or its key is absent. -/
theorem step_pending_or_absent (s : System) (r : Removal) (e : Event)
    (he : e.setsKey r.key = false)
    (h : r ∈ s.pending ∨ s.cache.data.lookup r.key = none) :
    r ∈ (s.step e).pending ∨ (s.step e).cache.data.lookup r.key = none := by
  rcases h with h | h
  · cases e with
    | get k => exact Or.inl h
    | set k v t =>
        left
        simp only [System.step]
        exact List.mem_append_left _ h
    | has k => exact Or.inl h
    | delete k => exact Or.inl h
    | size => exact Or.inl h
    | getStats => exact Or.inl h
    | fire q =>
        by_cases hq : q ∈ s.pending
        · rw [step_fire_of_mem s q hq]
          by_cases hqr : r = q
          · right
            subst hqr
            exact lookup_Delete_self s.cache r.key
          · left
            exact (List.mem_erase_of_ne hqr).mpr h
        · rw [step_fire_of_not_mem s q hq]
          exact Or.inl h
  · exact Or.inr (step_absent s r.key e he h)

theorem run_pending_or_absent (s : System) (r : Removal) (es : List Event)
    (hes : ∀ e ∈ es, e.setsKey r.key = false)
    (h : r ∈ s.pending ∨ s.cache.data.lookup r.key = none) :
    r ∈ (s.run es).pending ∨ (s.run es).cache.data.lookup r.key = none := by
  induction es generalizing s with
  | nil => exact h
  | cons e es ih =>
      have he := hes e (List.mem_cons_self e es)
      exact ih (s.step e) (fun x hx => hes x (List.mem_cons_of_mem e hx))
        (step_pending_or_absent s r e he h)

/-- Once a removal is pending or its key absent, trying to fire it leaves the key absent. -/
theorem fire_absent (s : System) (r : Removal)
    (h : r ∈ s.pending ∨ s.cache.data.lookup r.key = none) :
    (s.step (.fire r)).cache.data.lookup r.key = none := by
  by_cases hr : r ∈ s.pending
  · rw [step_fire_of_mem s r hr]
    exact lookup_Delete_self s.cache r.key
  · rw [step_fire_of_not_mem s r hr]
    rcases h with h | h
    · exact absurd h hr
    · exact h

/-- Events other than a `Set` on `key` schedule no removal for `key`. -/
theorem step_no_pending_for (s : System) (key : GoString) (e : Event)
    (he : e.setsKey key = false) (h : ∀ r ∈ s.pending, r.key ≠ key) :
    ∀ r ∈ (s.step e).pending, r.key ≠ key := by
  cases e with
  | get k => exact h
  | set k v t =>
      have hk : k ≠ key := by
        intro hk
        simp [Event.setsKey, hk] at he
      intro r hr
      simp only [System.step, List.mem_append] at hr
      rcases hr with hr | hr
      · exact h r hr
      · by_cases ht : t > 0
        · simp [Cache.Set, ht] at hr
          rw [hr]
          exact hk
        · simp [Cache.Set, ht] at hr
  | has k => exact h
  | delete k => exact h
  | size => exact h
  | getStats => exact h
  | fire q =>
      by_cases hq : q ∈ s.pending
      · rw [step_fire_of_mem s q hq]
        intro r hr
        exact h r (List.mem_of_mem_erase hr)
      · rw [step_fire_of_not_mem s q hq]
        exact h

/-- A stored value survives every event that is not a `Set` or `Delete` on its key nor
the firing of a pending removal for its key. -/
theorem step_present (s : System) (key value : GoString) (e : Event)
    (hs : e.setsKey key = false) (hd : e.deletesKey key = false)
    (hf : e.firesKey key = false ∨ ∀ r ∈ s.pending, r.key ≠ key)
    (h : s.cache.data.lookup key = some value) :
    (s.step e).cache.data.lookup key = some value := by
  cases e with
  | get k => simpa [System.step, Get_data] using h
  | set k v t =>
      have hk : key ≠ k := by
        intro hk
        simp [Event.setsKey, hk] at hs
      simp only [System.step, Set_data]
      rw [AList.lookup_insert_ne hk]
      exact h
  | has k => simpa [System.step, Has_data] using h
  | delete k =>
      have hk : key ≠ k := by
        intro hk
        simp [Event.deletesKey, hk] at hd
      simp only [System.step, Delete_data]
      rw [AList.lookup_erase_ne hk]
      exact h
  | size => exact h
  | getStats => simpa [System.step, GetStats_data] using h
  | fire q =>
      by_cases hq : q ∈ s.pending
      · rw [step_fire_of_mem s q hq]
        have hk : key ≠ q.key := by
          intro hk
          rcases hf with hf | hf
          · simp [Event.firesKey, hk] at hf
          · exact hf q hq hk.symm
        simp only [Delete_data]
        rw [AList.lookup_erase_ne hk]
        exact h
      · rw [step_fire_of_not_mem s q hq]
        exact h

theorem run_present (s : System) (key value : GoString) (es : List Event) (Q : Prop)
    (hQ : Q → ∀ r ∈ s.pending, r.key ≠ key)
    (hes : ∀ e ∈ es, e.setsKey key = false ∧ e.deletesKey key = false ∧
      (e.firesKey key = false ∨ Q))
    (h : s.cache.data.lookup key = some value) :
    (s.run es).cache.data.lookup key = some value := by
  induction es generalizing s with
  | nil => exact h
  | cons e es ih =>
      obtain ⟨h1, h2, h3⟩ := hes e (List.mem_cons_self e es)
      apply ih (s.step e)
      · intro q
        exact step_no_pending_for s key e h1 (hQ q)
      · exact fun x hx => hes x (List.mem_cons_of_mem e hx)
      · exact step_present s key value e h1 h2 (h3.imp id hQ) h

/-- Frame: an event that is no `Set`, `Delete` or removal firing on `key` leaves the
binding of `key` as it was. -/
theorem step_lookup_frame (s : System) (key : GoString) (e : Event)
    (hs : e.setsKey key = false) (hd : e.deletesKey key = false)
    (hf : e.firesKey key = false) :
    (s.step e).cache.data.lookup key = s.cache.data.lookup key := by
  cases e with
  | get k => simp [System.step, Get_data]
  | set k v t =>
      have hk : key ≠ k := by
        intro hk
        simp [Event.setsKey, hk] at hs
      simp only [System.step, Set_data]
      exact AList.lookup_insert_ne hk
  | has k => simp [System.step, Has_data]
  | delete k =>
      have hk : key ≠ k := by
        intro hk
        simp [Event.deletesKey, hk] at hd
      simp only [System.step, Delete_data]
      exact AList.lookup_erase_ne hk
  | size => rfl
  | getStats => simp [System.step, GetStats_data]
  | fire q =>
      by_cases hq : q ∈ s.pending
      · rw [step_fire_of_mem s q hq]
        have hk : key ≠ q.key := by
          intro hk
          simp [Event.firesKey, hk] at hf
        simp only [Delete_data]
        exact AList.lookup_erase_ne hk
      · rw [step_fire_of_not_mem s q hq]

/-- `Delete` of an absent key leaves the map as it is. -/
theorem Delete_data_of_absent (c : Cache) (key : GoString)
    (h : c.data.lookup key = none) : (c.Delete key).data = c.data := by
  rw [Delete_data]
  apply AList.ext
  have hk : key ∉ c.data.entries.keys := AList.lookup_eq_none.mp h
  exact List.kerase_of_not_mem_keys hk

/-- `Get` and `Has` read the same binding. -/
theorem Get_snd_eq (c : Cache) (key : GoString) :
    (c.Get key).2 =
      match c.data.lookup key with
      | some value => (some value.bytes, none)
      | none => (none, some errNoElement) := by
  cases h : c.data.lookup key <;> simp [Cache.Get, h]

/-- `Size()` is the number of keys of the map. -/
theorem Size_eq_keys_length (c : Cache) : c.Size = c.data.keys.length := by
  simp [Cache.Size, AList.keys, List.keys]

/-- A key is among the keys of the map exactly when `Has` finds it. -/
theorem mem_keys_iff_Has (c : Cache) (key : GoString) :
    key ∈ c.data.keys ↔ (c.Has key).2 = true := by
  rw [Has_eq, AList.lookup_isSome, AList.mem_keys]

/-- `Size()` after `Delete`: one less for a present key, the same for an absent one. -/
theorem Size_Delete (c : Cache) (key : GoString) :
    (c.Delete key).Size = if key ∈ c.data.keys then c.Size - 1 else c.Size := by
  rw [Size_eq_keys_length, Size_eq_keys_length, Delete_data, AList.keys_erase]
  split
  · next h => exact List.length_erase_of_mem h
  · next h => rw [List.erase_of_not_mem h]

/-- `Size()` after `Set`: one more for an absent key, the same for a present one. -/
theorem Size_Set (c : Cache) (key value : GoString) (ttl : Duration) :
    (c.Set key value ttl).1.Size = if key ∈ c.data.keys then c.Size else c.Size + 1 := by
  rw [Size_eq_keys_length, Size_eq_keys_length, Set_data, AList.keys_insert]
  split
  · next h =>
      have hpos : 0 < c.data.keys.length := List.length_pos_of_mem h
      rw [List.length_cons, List.length_erase_of_mem h]
      omega
  · next h => rw [List.length_cons, List.erase_of_not_mem h]

/-- An event that is not a `Set` on `key` either removes the binding of `key` or leaves
it as it was. -/
theorem step_lookup_none_or_same (s : System) (key : GoString) (e : Event)
    (hs : e.setsKey key = false) :
    (s.step e).cache.data.lookup key = none ∨
      (s.step e).cache.data.lookup key = s.cache.data.lookup key := by
  by_cases hd : e.deletesKey key = true
  · left
    cases e with
    | delete k =>
        have hk : k = key := by simpa [Event.deletesKey] using hd
        subst hk
        exact lookup_Delete_self s.cache k
    | _ => simp [Event.deletesKey] at hd
  · by_cases hf : e.firesKey key = true
    · cases e with
      | fire q =>
          have hk : q.key = key := by simpa [Event.firesKey] using hf
          subst hk
          by_cases hq : q ∈ s.pending
          · left
            rw [step_fire_of_mem s q hq]
            exact lookup_Delete_self s.cache q.key
          · right
            rw [step_fire_of_not_mem s q hq]
      | _ => simp [Event.firesKey] at hf
    · right
      exact step_lookup_frame s key e hs (by simpa using hd) (by simpa using hf)

/-- After a run, a key is absent or bound to the value of the last `Set` on it in the
run (to its binding at the start when the run has no `Set` on it). -/
theorem run_lookup_cases (s : System) (key : GoString) (es : List Event) :
    (s.run es).cache.data.lookup key = none ∨
      (s.run es).cache.data.lookup key =
        (match lastSetValue key es with
          | some v => some v
          | none => s.cache.data.lookup key) := by
  induction es generalizing s with
  | nil => exact Or.inr rfl
  | cons e es ih =>
      rcases ih (s.step e) with h | h
      · exact Or.inl h
      · simp only [System.run]
        cases hl : lastSetValue key es with
        | some v =>
            right
            rw [h, hl]
            simp [lastSetValue, hl]
        | none =>
            rw [hl] at h
            simp only at h
            cases e with
            | set k v t =>
                by_cases hk : k = key
                · right
                  subst hk
                  rw [h, step_set_lookup]
                  simp [lastSetValue, hl]
                · rcases step_lookup_none_or_same s key (.set k v t)
                    (by simp [Event.setsKey, hk]) with h2 | h2
                  · exact Or.inl (h.trans h2)
                  · right
                    rw [h, h2]
                    simp [lastSetValue, hl, hk]
            | get k =>
                rcases step_lookup_none_or_same s key (.get k) rfl with h2 | h2
                · exact Or.inl (h.trans h2)
                · right
                  rw [h, h2]
                  simp [lastSetValue, hl]
            | has k =>
                rcases step_lookup_none_or_same s key (.has k) rfl with h2 | h2
                · exact Or.inl (h.trans h2)
                · right
                  rw [h, h2]
                  simp [lastSetValue, hl]
            | delete k =>
                rcases step_lookup_none_or_same s key (.delete k) rfl with h2 | h2
                · exact Or.inl (h.trans h2)
                · right
                  rw [h, h2]
                  simp [lastSetValue, hl]
            | size =>
                right
                rw [h]
                simp [lastSetValue, hl, System.step]
            | getStats =>
                rcases step_lookup_none_or_same s key .getStats rfl with h2 | h2
                · exact Or.inl (h.trans h2)
                · right
                  rw [h, h2]
                  simp [lastSetValue, hl]
            | fire q =>
                rcases step_lookup_none_or_same s key (.fire q) rfl with h2 | h2
                · exact Or.inl (h.trans h2)
                · right
                  rw [h, h2]
                  simp [lastSetValue, hl]

/-! ## Counters -/

theorem Get_stats (c : Cache) (key : GoString) :
    (c.Get key).1.stats = { c.stats with NumGets := uintIncr c.stats.NumGets } := by
  cases h : c.data.lookup key <;> simp [Cache.Get, h]

theorem Set_stats (c : Cache) (key value : GoString) (ttl : Duration) :
    (c.Set key value ttl).1.stats = { c.stats with NumSets := uintIncr c.stats.NumSets } := by
  by_cases h : ttl > 0 <;> simp [Cache.Set, h]

theorem Has_stats (c : Cache) (key : GoString) :
    (c.Has key).1.stats = { c.stats with NumHasChecks := uintIncr c.stats.NumHasChecks } := rfl

theorem Delete_stats (c : Cache) (key : GoString) :
    (c.Delete key).stats = { c.stats with NumDeletes := uintIncr c.stats.NumDeletes } := rfl

theorem GetStats_stats (c : Cache) :
    c.GetStats.1.stats =
      { c.stats with
        TotalOperations :=
          uintAdd (uintAdd (uintAdd c.stats.NumGets c.stats.NumSets) c.stats.NumHasChecks)
            c.stats.NumDeletes } := rfl

/-- The four counters after a run in which every `fire` is of a pending goroutine. -/
theorem run_counters (s : System) (es : List Event) (h : s.Schedule es = true)
    (hg : s.cache.stats.NumGets < uintSize) (hs : s.cache.stats.NumSets < uintSize)
    (hh : s.cache.stats.NumHasChecks < uintSize) (hd : s.cache.stats.NumDeletes < uintSize) :
    (s.run es).cache.stats.NumGets = (s.cache.stats.NumGets + countGets es) % uintSize ∧
    (s.run es).cache.stats.NumSets = (s.cache.stats.NumSets + countSets es) % uintSize ∧
    (s.run es).cache.stats.NumHasChecks
      = (s.cache.stats.NumHasChecks + countHas es) % uintSize ∧
    (s.run es).cache.stats.NumDeletes
      = (s.cache.stats.NumDeletes + (countDeletes es + countFires es)) % uintSize := by
  induction es generalizing s with
  | nil =>
      simp only [System.run, countGets, countSets, countHas, countDeletes, countFires,
        List.countP_nil, Nat.add_zero]
      exact ⟨(Nat.mod_eq_of_lt hg).symm, (Nat.mod_eq_of_lt hs).symm,
        (Nat.mod_eq_of_lt hh).symm, (Nat.mod_eq_of_lt hd).symm⟩
  | cons e es ih =>
      have hsched : (s.step e).Schedule es = true := by
        simp only [System.Schedule, Bool.and_eq_true] at h
        exact h.2
      have hpos : 0 < uintSize := by decide
      cases e with
      | get k =>
          have ih1 := ih (s.step (.get k)) hsched
            (by simp only [System.step, Get_stats]; exact Nat.mod_lt _ hpos)
            (by simpa [System.step, Get_stats] using hs)
            (by simpa [System.step, Get_stats] using hh)
            (by simpa [System.step, Get_stats] using hd)
          simp only [System.step, Get_stats, uintIncr] at ih1
          simp only [System.run, System.step, countGets, countSets, countHas, countDeletes,
            countFires, List.countP_cons] at ih1 ⊢
          simp only [uintSize] at ih1 ⊢
          refine ⟨?_, ?_, ?_, ?_⟩
          · rw [ih1.1]; simp; omega
          · rw [ih1.2.1]; simp
          · rw [ih1.2.2.1]; simp
          · rw [ih1.2.2.2]; simp
      | set k v t =>
          have ih1 := ih (s.step (.set k v t)) hsched
            (by simpa [System.step, Set_stats] using hg)
            (by simp only [System.step, Set_stats]; exact Nat.mod_lt _ hpos)
            (by simpa [System.step, Set_stats] using hh)
            (by simpa [System.step, Set_stats] using hd)
          simp only [System.step, Set_stats, uintIncr] at ih1
          simp only [System.run, System.step, countGets, countSets, countHas, countDeletes,
            countFires, List.countP_cons] at ih1 ⊢
          simp only [uintSize] at ih1 ⊢
          refine ⟨?_, ?_, ?_, ?_⟩
          · rw [ih1.1]; simp
          · rw [ih1.2.1]; simp; omega
          · rw [ih1.2.2.1]; simp
          · rw [ih1.2.2.2]; simp
      | has k =>
          have ih1 := ih (s.step (.has k)) hsched
            (by simpa [System.step, Has_stats] using hg)
            (by simpa [System.step, Has_stats] using hs)
            (by simp only [System.step, Has_stats]; exact Nat.mod_lt _ hpos)
            (by simpa [System.step, Has_stats] using hd)
          simp only [System.step, Has_stats, uintIncr] at ih1
          simp only [System.run, System.step, countGets, countSets, countHas, countDeletes,
            countFires, List.countP_cons] at ih1 ⊢
          simp only [uintSize] at ih1 ⊢
          refine ⟨?_, ?_, ?_, ?_⟩
          · rw [ih1.1]; simp
          · rw [ih1.2.1]; simp
          · rw [ih1.2.2.1]; simp; omega
          · rw [ih1.2.2.2]; simp
      | delete k =>
          have ih1 := ih (s.step (.delete k)) hsched
            (by simpa [System.step, Delete_stats] using hg)
            (by simpa [System.step, Delete_stats] using hs)
            (by simpa [System.step, Delete_stats] using hh)
            (by simp only [System.step, Delete_stats]; exact Nat.mod_lt _ hpos)
          simp only [System.step, Delete_stats, uintIncr] at ih1
          simp only [System.run, System.step, countGets, countSets, countHas, countDeletes,
            countFires, List.countP_cons] at ih1 ⊢
          simp only [uintSize] at ih1 ⊢
          refine ⟨?_, ?_, ?_, ?_⟩
          · rw [ih1.1]; simp
          · rw [ih1.2.1]; simp
          · rw [ih1.2.2.1]; simp
          · rw [ih1.2.2.2]; simp; omega
      | size =>
          have ih1 := ih (s.step .size) hsched hg hs hh hd
          simp only [System.run, System.step, countGets, countSets, countHas, countDeletes,
            countFires, List.countP_cons] at ih1 ⊢
          refine ⟨?_, ?_, ?_, ?_⟩
          · rw [ih1.1]; simp
          · rw [ih1.2.1]; simp
          · rw [ih1.2.2.1]; simp
          · rw [ih1.2.2.2]; simp
      | getStats =>
          have ih1 := ih (s.step .getStats) hsched
            (by simpa [System.step, GetStats_stats] using hg)
            (by simpa [System.step, GetStats_stats] using hs)
            (by simpa [System.step, GetStats_stats] using hh)
            (by simpa [System.step, GetStats_stats] using hd)
          simp only [System.step, GetStats_stats] at ih1
          simp only [System.run, System.step, countGets, countSets, countHas, countDeletes,
            countFires, List.countP_cons] at ih1 ⊢
          refine ⟨?_, ?_, ?_, ?_⟩
          · rw [ih1.1]; simp
          · rw [ih1.2.1]; simp
          · rw [ih1.2.2.1]; simp
          · rw [ih1.2.2.2]; simp
      | fire r =>
          have hr : r ∈ s.pending := by
            simp only [System.Schedule, Bool.and_eq_true, decide_eq_true_eq] at h
            exact h.1
          have hstep := step_fire_of_mem s r hr
          have ih1 := ih (s.step (.fire r)) hsched
            (by rw [hstep]; simpa [Delete_stats] using hg)
            (by rw [hstep]; simpa [Delete_stats] using hs)
            (by rw [hstep]; simpa [Delete_stats] using hh)
            (by rw [hstep]; simp only [Delete_stats]; exact Nat.mod_lt _ hpos)
          rw [hstep] at ih1
          simp only [Delete_stats, uintIncr] at ih1
          simp only [System.run, countGets, countSets, countHas, countDeletes,
            countFires, List.countP_cons] at ih1 ⊢
          rw [hstep]
          simp only [uintSize] at ih1 ⊢
          refine ⟨?_, ?_, ?_, ?_⟩
          · rw [ih1.1]; simp
          · rw [ih1.2.1]; simp
          · rw [ih1.2.2.1]; simp
          · rw [ih1.2.2.2]; simp; omega

/-! ## Properties of the specification -/

/-- C1 (miss contract). For every cache state and key absent from the store, `Get(key)`
returns a nil byte slice and a non-nil error; a key is absent in particular after any
run from `New()` that never `Set` it, right after `Delete(key)`, and right after a
pending removal scheduled for it has fired. -/
theorem get_miss_contract (c : Cache) (s : System) (key : GoString) :
    (c.data.lookup key = none → (c.Get key).2 = (none, some errNoElement)) ∧
    (∀ es : List Event, (∀ e ∈ es, e.setsKey key = false) →
      ((System.init.run es).cache.Get key).2 = (none, some errNoElement)) ∧
    ((c.Delete key).Get key).2 = (none, some errNoElement) ∧
    (∀ r : Removal, r.key = key → r ∈ s.pending →
      ((s.step (.fire r)).cache.Get key).2 = (none, some errNoElement)) := by
  refine ⟨Get_of_lookup_none c key, ?_, ?_, ?_⟩
  · intro es hes
    apply Get_of_lookup_none
    exact run_absent System.init key es hes (by simp [System.init, New])
  · exact Get_of_lookup_none _ key (lookup_Delete_self c key)
  · intro r hk hr
    apply Get_of_lookup_none
    subst hk
    exact fire_absent s r (Or.inl hr)

/-- Witness of C1 on `New()`, on a run that sets another key, and on a fired removal. -/
theorem get_miss_contract_witness :
    (New.data.lookup (GoString.lit "missing") = none ∧
      (New.Get (GoString.lit "missing")).2 = (none, some errNoElement)) ∧
    ((∀ e ∈ [Event.set (GoString.lit "a") (GoString.lit "x") 0, Event.has (GoString.lit "missing")],
        e.setsKey (GoString.lit "missing") = false) ∧
      ((System.init.run [Event.set (GoString.lit "a") (GoString.lit "x") 0,
          Event.has (GoString.lit "missing")]).cache.Get (GoString.lit "missing")).2
        = (none, some errNoElement)) ∧
    ((⟨GoString.lit "k", 5⟩ : Removal) ∈
        (System.init.step (.set (GoString.lit "k") (GoString.lit "v") 5)).pending ∧
      (((System.init.step (.set (GoString.lit "k") (GoString.lit "v") 5)).step
          (.fire ⟨GoString.lit "k", 5⟩)).cache.Get (GoString.lit "k")).2
        = (none, some errNoElement)) :=
  ⟨⟨by decide,
      (get_miss_contract New System.init (GoString.lit "missing")).1 (by decide)⟩,
    ⟨by decide,
      (get_miss_contract New System.init (GoString.lit "missing")).2.1 _ (by decide)⟩,
    ⟨by decide,
      (get_miss_contract New
        (System.init.step (.set (GoString.lit "k") (GoString.lit "v") 5))
        (GoString.lit "k")).2.2.2 ⟨GoString.lit "k", 5⟩ rfl (by decide)⟩⟩

/-- C2 (round trip). For every cache state, key and value, `Set(key, value, 0)` followed
at once by `Get(key)` returns a nil error and exactly the bytes of `value`; converting
them back to a string gives `value`. -/
theorem set_get_round_trip (c : Cache) (key value : GoString) :
    ∃ b : List UInt8,
      ((c.Set key value 0).1.Get key).2 = (some b, none) ∧
      b = value.bytes ∧ GoString.ofBytes b = value := by
  refine ⟨value.bytes, ?_, rfl, rfl⟩
  apply Get_of_lookup_some
  rw [Set_data]
  exact AList.lookup_insert c.data

/-- C3 (TTL expiry). For every state, key, value and `ttl > 0`: right after
`Set(key, value, ttl)` the key is present and its removal is pending; and in every
continuation in which that removal fires and no `Set` on the key occurs, `Has(key)`
is false and `Get(key)` returns the not-found error. -/
theorem ttl_expiry (s : System) (key value : GoString) (ttl : Duration) (httl : 0 < ttl)
    (es1 es2 : List Event)
    (h1 : ∀ e ∈ es1, e.setsKey key = false) (h2 : ∀ e ∈ es2, e.setsKey key = false) :
    ((s.step (.set key value ttl)).cache.Has key).2 = true ∧
    (⟨key, ttl⟩ : Removal) ∈ (s.step (.set key value ttl)).pending ∧
    ((((s.step (.set key value ttl)).run (es1 ++ .fire ⟨key, ttl⟩ :: es2)).cache.Has key).2
      = false) ∧
    ((((s.step (.set key value ttl)).run (es1 ++ .fire ⟨key, ttl⟩ :: es2)).cache.Get key).2
      = (none, some errNoElement)) := by
  have hp : (⟨key, ttl⟩ : Removal) ∈ (s.step (.set key value ttl)).pending := by
    rw [step_set_pending_pos s key value ttl httl]
    simp
  have habs : (((s.step (.set key value ttl)).run
      (es1 ++ .fire ⟨key, ttl⟩ :: es2)).cache.data.lookup key) = none := by
    rw [run_append]
    show ((((s.step (.set key value ttl)).run es1).step (.fire ⟨key, ttl⟩)).run es2).cache.data.lookup
      key = none
    apply run_absent _ key es2 h2
    exact fire_absent _ ⟨key, ttl⟩
      (run_pending_or_absent _ ⟨key, ttl⟩ es1 h1 (Or.inl hp))
  refine ⟨?_, hp, ?_, ?_⟩
  · rw [Has_eq, step_set_lookup]; rfl
  · rw [Has_eq, habs]; rfl
  · exact Get_of_lookup_none _ key habs

/-- Witness of C3: the TTL test of `TestSet`, with a `Has` before the removal fires. -/
theorem ttl_expiry_witness :
    ((System.init.step (.set (GoString.lit "testKey") (GoString.lit "testValue") 200000000)).cache.Has
        (GoString.lit "testKey")).2 = true ∧
    (((System.init.step (.set (GoString.lit "testKey") (GoString.lit "testValue") 200000000)).run
        ([Event.has (GoString.lit "testKey")] ++
          .fire ⟨GoString.lit "testKey", 200000000⟩ :: [])).cache.Has
        (GoString.lit "testKey")).2 = false :=
  have h := ttl_expiry System.init (GoString.lit "testKey") (GoString.lit "testValue")
    200000000 (by decide) [Event.has (GoString.lit "testKey")] [] (by decide) (by decide)
  ⟨h.1, h.2.2.1⟩

/-- C4 (earliest timer wins). After `Set(key, v1, t1)` then `Set(key, v2, t2)` with both
TTLs positive, the store holds `v2` and both removals are pending; in every continuation
without a further `Set` on the key, as soon as either of the two removals fires the key
is absent, also when it is the removal of the first `Set`. -/
theorem earliest_timer_wins (s : System) (key v1 v2 : GoString) (t1 t2 : Duration)
    (ht1 : 0 < t1) (ht2 : 0 < t2) (es : List Event)
    (hes : ∀ e ∈ es, e.setsKey key = false) :
    ((s.step (.set key v1 t1)).step (.set key v2 t2)).cache.data.lookup key = some v2 ∧
    (⟨key, t1⟩ : Removal) ∈ ((s.step (.set key v1 t1)).step (.set key v2 t2)).pending ∧
    (⟨key, t2⟩ : Removal) ∈ ((s.step (.set key v1 t1)).step (.set key v2 t2)).pending ∧
    ((((((s.step (.set key v1 t1)).step (.set key v2 t2)).run es).step
        (.fire ⟨key, t1⟩)).cache.Has key).2 = false) ∧
    ((((((s.step (.set key v1 t1)).step (.set key v2 t2)).run es).step
        (.fire ⟨key, t2⟩)).cache.Has key).2 = false) := by
  have hp1 : (⟨key, t1⟩ : Removal) ∈
      ((s.step (.set key v1 t1)).step (.set key v2 t2)).pending := by
    rw [step_set_pending_pos _ key v2 t2 ht2, step_set_pending_pos _ key v1 t1 ht1]
    simp
  have hp2 : (⟨key, t2⟩ : Removal) ∈
      ((s.step (.set key v1 t1)).step (.set key v2 t2)).pending := by
    rw [step_set_pending_pos _ key v2 t2 ht2]
    simp
  refine ⟨step_set_lookup _ key v2 t2, hp1, hp2, ?_, ?_⟩
  · rw [Has_eq]
    have h := fire_absent _ ⟨key, t1⟩
      (run_pending_or_absent _ ⟨key, t1⟩ es hes (Or.inl hp1))
    simp only at h
    rw [h]; rfl
  · rw [Has_eq]
    have h := fire_absent _ ⟨key, t2⟩
      (run_pending_or_absent _ ⟨key, t2⟩ es hes (Or.inl hp2))
    simp only at h
    rw [h]; rfl

/-- Witness of C4: the override test of `TestSet` (long TTL, then short TTL). -/
theorem earliest_timer_wins_witness :
    ((((((System.init.step (.set (GoString.lit "testKey") (GoString.lit "testValue")
        10000000000)).step (.set (GoString.lit "testKey") (GoString.lit "testValue")
        200000000)).run [Event.get (GoString.lit "testKey")]).step
        (.fire ⟨GoString.lit "testKey", 10000000000⟩)).cache.Has
        (GoString.lit "testKey")).2 = false) ∧
    ((((((System.init.step (.set (GoString.lit "testKey") (GoString.lit "testValue")
        10000000000)).step (.set (GoString.lit "testKey") (GoString.lit "testValue")
        200000000)).run [Event.get (GoString.lit "testKey")]).step
        (.fire ⟨GoString.lit "testKey", 200000000⟩)).cache.Has
        (GoString.lit "testKey")).2 = false) :=
  (earliest_timer_wins System.init (GoString.lit "testKey") (GoString.lit "testValue")
    (GoString.lit "testValue") 10000000000 200000000 (by decide) (by decide)
    [Event.get (GoString.lit "testKey")] (by decide)).2.2.2

/-- C5 (Delete postcondition). For every cache state and key, right after `Delete(key)`
`Has(key)` is false and `Get(key)` returns a nil value with a non-nil error, whether or
not the key was present before. -/
theorem delete_postcondition (c : Cache) (key : GoString) :
    ((c.Delete key).Has key).2 = false ∧
    ((c.Delete key).Get key).2 = (none, some errNoElement) := by
  constructor
  · rw [Has_eq, lookup_Delete_self]; rfl
  · exact Get_of_lookup_none _ key (lookup_Delete_self c key)

/-- C6, as stated, fails: `Delete` of an absent key on `New()` changes the cache state
(the delete counter, which `GetStats` reports), and so does a second `Delete` of a key. -/
theorem delete_changes_state :
    New.data.lookup (GoString.lit "missing") = none ∧
    (New.Delete (GoString.lit "missing")).stats ≠ New.stats ∧
    (New.Delete (GoString.lit "missing")).GetStats.2 ≠ New.GetStats.2 ∧
    (((New.Set (GoString.lit "k") (GoString.lit "v") 0).1.Delete (GoString.lit "k")).Delete
        (GoString.lit "k")).stats ≠
      ((New.Set (GoString.lit "k") (GoString.lit "v") 0).1.Delete (GoString.lit "k")).stats := by
  decide

/-- C6, amended. For every cache state and key, a second `Delete(key)` leaves the store
as the first one left it, and `Delete` of an absent key leaves the store unchanged; in
both cases the only change of the cache state is the delete counter, incremented by one. -/
theorem delete_idempotent_on_store (c : Cache) (key : GoString) :
    ((c.Delete key).Delete key).data = (c.Delete key).data ∧
    (c.data.lookup key = none → (c.Delete key).data = c.data) ∧
    (c.Delete key).stats = { c.stats with NumDeletes := uintIncr c.stats.NumDeletes } ∧
    ((c.Delete key).Delete key).stats =
      { (c.Delete key).stats with NumDeletes := uintIncr (c.Delete key).stats.NumDeletes } := by
  have key_absent : ∀ d : Cache, d.data.lookup key = none → (d.Delete key).data = d.data := by
    intro d hd
    rw [Delete_data]
    apply AList.ext
    have hk : key ∉ d.data.entries.keys := AList.lookup_eq_none.mp hd
    exact List.kerase_of_not_mem_keys hk
  exact ⟨key_absent _ (lookup_Delete_self c key), key_absent c, rfl, rfl⟩

/-- Witness of C6 amended: `Delete("missing")` on `New()`, as in `TestDelete`. -/
theorem delete_idempotent_on_store_witness :
    New.data.lookup (GoString.lit "missing") = none ∧
    (New.Delete (GoString.lit "missing")).data = New.data :=
  ⟨by decide, (delete_idempotent_on_store New (GoString.lit "missing")).2.1 (by decide)⟩

/-- C7, as stated, fails: after one `Set` with a positive TTL and no `Delete` call, once
the removal has fired `GetStats()` reports one delete and a total of two. -/
theorem stats_count_fired_removal :
    System.init.Schedule
        [Event.set (GoString.lit "k") (GoString.lit "v") 1, Event.fire ⟨GoString.lit "k", 1⟩]
      = true ∧
    countDeletes
        [Event.set (GoString.lit "k") (GoString.lit "v") 1, Event.fire ⟨GoString.lit "k", 1⟩]
      = 0 ∧
    ((System.init.run
        [Event.set (GoString.lit "k") (GoString.lit "v") 1,
          Event.fire ⟨GoString.lit "k", 1⟩]).cache.GetStats).2
      = { TotalOperations := 2, NumGets := 0, NumSets := 1, NumHasChecks := 0,
          NumDeletes := 1 } := by
  decide

/-- C7, amended. After any sequence of events on a cache from `New()` with `g` `Get`,
`s` `Set`, `h` `Has` and `d` `Delete` calls and `f` firings of pending removals, in any
order, `GetStats()` returns `NumGets = g`, `NumSets = s`, `NumHasChecks = h`,
`NumDeletes = d + f` and `TotalOperations = g + s + h + d + f`, each modulo `2 ^ 64`. -/
theorem stats_accounting (es : List Event) (h : System.init.Schedule es = true) :
    ((System.init.run es).cache.GetStats).2 =
      { TotalOperations :=
          (countGets es + countSets es + countHas es + countDeletes es + countFires es)
            % uintSize
        NumGets := countGets es % uintSize
        NumSets := countSets es % uintSize
        NumHasChecks := countHas es % uintSize
        NumDeletes := (countDeletes es + countFires es) % uintSize } := by
  have hpos : 0 < uintSize := by decide
  have hc := run_counters System.init es h hpos hpos hpos hpos
  simp only [System.init, New, Nat.zero_add] at hc
  obtain ⟨hg, hs, hh, hd⟩ := hc
  simp only [Cache.GetStats, uintAdd]
  simp only [System.init, New] at hg hs hh hd ⊢
  rw [hg, hs, hh, hd]
  simp only [uintSize, CacheStats.mk.injEq, and_true]
  omega

/-- Witness of C7 amended: one call of each method and one firing. -/
theorem stats_accounting_witness :
    System.init.Schedule
        [Event.set (GoString.lit "k") (GoString.lit "v") 1, Event.get (GoString.lit "k"),
          Event.has (GoString.lit "k"), Event.fire ⟨GoString.lit "k", 1⟩,
          Event.delete (GoString.lit "k")] = true ∧
    ((System.init.run
        [Event.set (GoString.lit "k") (GoString.lit "v") 1, Event.get (GoString.lit "k"),
          Event.has (GoString.lit "k"), Event.fire ⟨GoString.lit "k", 1⟩,
          Event.delete (GoString.lit "k")]).cache.GetStats).2.NumDeletes = 2 :=
  ⟨by decide,
    (congrArg CacheStats.NumDeletes
      (stats_accounting
        [Event.set (GoString.lit "k") (GoString.lit "v") 1, Event.get (GoString.lit "k"),
          Event.has (GoString.lit "k"), Event.fire ⟨GoString.lit "k", 1⟩,
          Event.delete (GoString.lit "k")] (by decide))).trans (by decide)⟩

/-- C8 (total is the sum). For every cache state the snapshot of `GetStats()` carries the
four counters unchanged and a total that is their sum in `uint` arithmetic: equal to the
sum modulo `2 ^ 64`, and to the exact sum whenever that is below `2 ^ 64`. -/
theorem total_is_sum (c : Cache) :
    c.GetStats.2.NumGets = c.stats.NumGets ∧
    c.GetStats.2.NumSets = c.stats.NumSets ∧
    c.GetStats.2.NumHasChecks = c.stats.NumHasChecks ∧
    c.GetStats.2.NumDeletes = c.stats.NumDeletes ∧
    c.GetStats.2.TotalOperations =
      uintAdd (uintAdd (uintAdd c.GetStats.2.NumGets c.GetStats.2.NumSets)
        c.GetStats.2.NumHasChecks) c.GetStats.2.NumDeletes ∧
    c.GetStats.2.TotalOperations =
      (c.GetStats.2.NumGets + c.GetStats.2.NumSets + c.GetStats.2.NumHasChecks
        + c.GetStats.2.NumDeletes) % 2 ^ 64 ∧
    (c.GetStats.2.NumGets + c.GetStats.2.NumSets + c.GetStats.2.NumHasChecks
        + c.GetStats.2.NumDeletes < 2 ^ 64 →
      c.GetStats.2.TotalOperations =
        c.GetStats.2.NumGets + c.GetStats.2.NumSets + c.GetStats.2.NumHasChecks
          + c.GetStats.2.NumDeletes) := by
  refine ⟨rfl, rfl, rfl, rfl, rfl, ?_, ?_⟩
  · simp only [Cache.GetStats, uintAdd, uintSize]
    omega
  · simp only [Cache.GetStats, uintAdd, uintSize]
    omega

/-- Witness of C8: counters 3, 4, 5, 6 give a total of 18. -/
theorem total_is_sum_witness :
    (3 + 4 + 5 + 6 < 2 ^ 64) ∧
    (Cache.GetStats { data := ∅, stats := ⟨0, 3, 4, 5, 6⟩ }).2.TotalOperations = 18 :=
  ⟨by decide,
    (total_is_sum { data := ∅, stats := ⟨0, 3, 4, 5, 6⟩ }).2.2.2.2.2.2 (by decide)⟩

/-- C9 (overwrite). For every cache state, key, values and TTLs, after `Set(key, v1, _)`
followed by `Set(key, v2, _)`, `Get(key)` returns the bytes of `v2`, `Size()` is what it
was after the first `Set`, and the store has exactly one entry for the key. -/
theorem set_overwrite (c : Cache) (key v1 v2 : GoString) (t1 t2 : Duration) :
    ((((c.Set key v1 t1).1.Set key v2 t2).1).Get key).2 = (some v2.bytes, none) ∧
    (((c.Set key v1 t1).1.Set key v2 t2).1).Size = ((c.Set key v1 t1).1).Size ∧
    (((c.Set key v1 t1).1.Set key v2 t2).1).data.keys.count key = 1 := by
  refine ⟨?_, ?_, ?_⟩
  · apply Get_of_lookup_some
    rw [Set_data]
    exact AList.lookup_insert _
  · simp only [Cache.Size, Set_data, AList.insert_insert, AList.insert_entries]
    rfl
  · apply List.count_eq_one_of_mem (AList.keys_nodup _)
    rw [Set_data, ← AList.mem_keys, AList.mem_insert]
    exact Or.inl rfl

/-- C10, as stated, fails: the entry written by `Set("k", "v2", 0)` is removed, with no
`Delete` call and no further `Set`, by the removal that an earlier `Set("k", "v1", 5)`
left pending. -/
theorem nonpositive_ttl_entry_removed :
    (((System.init.step (.set (GoString.lit "k") (GoString.lit "v1") 5)).step
        (.set (GoString.lit "k") (GoString.lit "v2") 0)).cache.Get (GoString.lit "k")).2
      = (some (GoString.lit "v2").bytes, none) ∧
    (∀ e ∈ [Event.fire ⟨GoString.lit "k", 5⟩],
      e.setsKey (GoString.lit "k") = false ∧ e.deletesKey (GoString.lit "k") = false) ∧
    ((System.init.step (.set (GoString.lit "k") (GoString.lit "v1") 5)).step
        (.set (GoString.lit "k") (GoString.lit "v2") 0)).Schedule
        [Event.fire ⟨GoString.lit "k", 5⟩] = true ∧
    ((((System.init.step (.set (GoString.lit "k") (GoString.lit "v1") 5)).step
        (.set (GoString.lit "k") (GoString.lit "v2") 0)).run
        [Event.fire ⟨GoString.lit "k", 5⟩]).cache.Has (GoString.lit "k")).2 = false := by
  decide

/-- C10, amended. For every state, key, value and `ttl <= 0`, `Set(key, value, ttl)`
starts no removal goroutine, and afterwards the entry stays present with that value
across every sequence of events containing no `Delete(key)`, no `Set` on the key and no
firing of a removal for the key (none can fire when none was pending at the `Set`). -/
theorem nonpositive_ttl_persists (s : System) (key value : GoString) (ttl : Duration)
    (httl : ttl ≤ 0) (es : List Event)
    (hes : ∀ e ∈ es, e.setsKey key = false ∧ e.deletesKey key = false ∧
      (e.firesKey key = false ∨ ∀ r ∈ s.pending, r.key ≠ key)) :
    (s.cache.Set key value ttl).2 = none ∧
    (s.step (.set key value ttl)).pending = s.pending ∧
    (((s.step (.set key value ttl)).run es).cache.Has key).2 = true ∧
    (((s.step (.set key value ttl)).run es).cache.Get key).2 = (some value.bytes, none) := by
  have hp := step_set_pending_nonpos s key value ttl httl
  have hl : ((s.step (.set key value ttl)).run es).cache.data.lookup key = some value := by
    apply run_present _ key value es (∀ r ∈ s.pending, r.key ≠ key)
    · intro hq
      rw [hp]
      exact hq
    · exact hes
    · exact step_set_lookup s key value ttl
  refine ⟨?_, hp, ?_, ?_⟩
  · have h1 : ¬ ttl > 0 := not_lt.mpr httl
    simp [Cache.Set, h1]
  · rw [Has_eq, hl]; rfl
  · exact Get_of_lookup_some _ key value hl

/-- Witness of C10 amended: key "2" of `TestE2EIntegration` outlives the removal of "3". -/
theorem nonpositive_ttl_persists_witness :
    ((((System.init.step (.set (GoString.lit "3") (GoString.lit "three") 200000000)).step
        (.set (GoString.lit "2") (GoString.lit "two") 0)).run
        [Event.fire ⟨GoString.lit "3", 200000000⟩, Event.delete (GoString.lit "1")]).cache.Get
        (GoString.lit "2")).2 = (some (GoString.lit "two").bytes, none) :=
  (nonpositive_ttl_persists
    (System.init.step (.set (GoString.lit "3") (GoString.lit "three") 200000000))
    (GoString.lit "2") (GoString.lit "two") 0 (by decide)
    [Event.fire ⟨GoString.lit "3", 200000000⟩, Event.delete (GoString.lit "1")]
    (by decide)).2.2.2

/-- C12 (per-operation counter step). In every cache state each call of `Get`, `Set`,
`Has` or `Delete` applies `++` to its own counter and leaves the other counters (and the
stored total) as they were, whatever the outcome of the call; `++` adds exactly one
while the counter is below the largest `uint`. -/
theorem counter_step (c : Cache) (key value : GoString) (ttl : Duration) :
    ((c.Get key).1.stats = { c.stats with NumGets := uintIncr c.stats.NumGets }) ∧
    ((c.Set key value ttl).1.stats = { c.stats with NumSets := uintIncr c.stats.NumSets }) ∧
    ((c.Has key).1.stats
      = { c.stats with NumHasChecks := uintIncr c.stats.NumHasChecks }) ∧
    ((c.Delete key).stats = { c.stats with NumDeletes := uintIncr c.stats.NumDeletes }) ∧
    (c.stats.NumGets + 1 < 2 ^ 64 → (c.Get key).1.stats.NumGets = c.stats.NumGets + 1) ∧
    (c.stats.NumSets + 1 < 2 ^ 64 →
      (c.Set key value ttl).1.stats.NumSets = c.stats.NumSets + 1) ∧
    (c.stats.NumHasChecks + 1 < 2 ^ 64 →
      (c.Has key).1.stats.NumHasChecks = c.stats.NumHasChecks + 1) ∧
    (c.stats.NumDeletes + 1 < 2 ^ 64 →
      (c.Delete key).stats.NumDeletes = c.stats.NumDeletes + 1) := by
  have hincr : ∀ n : Nat, n + 1 < 2 ^ 64 → uintIncr n = n + 1 := by
    intro n hn
    exact Nat.mod_eq_of_lt hn
  refine ⟨Get_stats c key, Set_stats c key value ttl, rfl, rfl, ?_, ?_, ?_, ?_⟩
  · intro h
    rw [Get_stats]
    exact hincr _ h
  · intro h
    rw [Set_stats]
    exact hincr _ h
  · intro h
    exact hincr _ h
  · intro h
    exact hincr _ h

/-- Witness of C12: on `New()` a missing `Get`, a false `Has` and a `Delete` of an absent
key are each counted once. -/
theorem counter_step_witness :
    ((New.Get (GoString.lit "missing")).2 = (none, some errNoElement) ∧
      (New.Get (GoString.lit "missing")).1.stats.NumGets = New.stats.NumGets + 1) ∧
    ((New.Has (GoString.lit "missing")).2 = false ∧
      (New.Has (GoString.lit "missing")).1.stats.NumHasChecks = New.stats.NumHasChecks + 1) ∧
    (New.data.lookup (GoString.lit "missing") = none ∧
      (New.Delete (GoString.lit "missing")).stats.NumDeletes = New.stats.NumDeletes + 1) ∧
    (New.Set (GoString.lit "k") (GoString.lit "v") 0).1.stats.NumSets
      = New.stats.NumSets + 1 :=
  ⟨⟨by decide,
      (counter_step New (GoString.lit "missing") (GoString.lit "v") 0).2.2.2.2.1
        (by decide)⟩,
    ⟨by decide,
      (counter_step New (GoString.lit "missing") (GoString.lit "v") 0).2.2.2.2.2.2.1
        (by decide)⟩,
    ⟨by decide,
      (counter_step New (GoString.lit "missing") (GoString.lit "v") 0).2.2.2.2.2.2.2
        (by decide)⟩,
    (counter_step New (GoString.lit "k") (GoString.lit "v") 0).2.2.2.2.2.1 (by decide)⟩

/-- C13 (reads do not mutate the store). For every state and key, `Get(key)` and
`Has(key)`, hit or miss, leave the map (hence the present keys, their values and
`Size()`) and the pending removals unchanged; they change only their own counter. -/
theorem reads_preserve_store (s : System) (key : GoString) :
    (s.step (.get key)).cache.data = s.cache.data ∧
    (s.step (.get key)).cache.Size = s.cache.Size ∧
    (s.step (.get key)).pending = s.pending ∧
    (s.step (.get key)).cache.stats
      = { s.cache.stats with NumGets := uintIncr s.cache.stats.NumGets } ∧
    (s.step (.has key)).cache.data = s.cache.data ∧
    (s.step (.has key)).cache.Size = s.cache.Size ∧
    (s.step (.has key)).pending = s.pending ∧
    (s.step (.has key)).cache.stats
      = { s.cache.stats with NumHasChecks := uintIncr s.cache.stats.NumHasChecks } := by
  refine ⟨Get_data _ key, ?_, rfl, Get_stats _ key, rfl, rfl, rfl, rfl⟩
  simp only [System.step, Cache.Size, Get_data]

/-- C14 (removal scheduling is append-only). A `Set` with `ttl > 0` appends exactly one
pending removal, for its key, and keeps all earlier ones; `Set` with `ttl <= 0`, `Get`,
`Has`, `Delete`, `Size` and `GetStats` leave the pending removals unchanged; no event
other than a firing drops a pending removal; a firing consumes exactly the removal that
fires, and on an absent key it leaves the map unchanged. -/
theorem removal_scheduling (s : System) (key value : GoString) (ttl : Duration)
    (r : Removal) :
    (0 < ttl → (s.step (.set key value ttl)).pending = s.pending ++ [⟨key, ttl⟩]) ∧
    (ttl ≤ 0 → (s.step (.set key value ttl)).pending = s.pending) ∧
    (s.step (.get key)).pending = s.pending ∧
    (s.step (.has key)).pending = s.pending ∧
    (s.step (.delete key)).pending = s.pending ∧
    (s.step .size).pending = s.pending ∧
    (s.step .getStats).pending = s.pending ∧
    (∀ e : Event, (∀ q : Removal, e ≠ .fire q) → s.pending <+: (s.step e).pending) ∧
    (r ∈ s.pending →
      (s.step (.fire r)).pending = s.pending.erase r ∧
      (s.step (.fire r)).pending.length + 1 = s.pending.length ∧
      (s.step (.fire r)).pending.count r + 1 = s.pending.count r) ∧
    (r ∈ s.pending → s.cache.data.lookup r.key = none →
      (s.step (.fire r)).cache.data = s.cache.data) := by
  refine ⟨step_set_pending_pos s key value ttl, step_set_pending_nonpos s key value ttl,
    rfl, rfl, rfl, rfl, rfl, ?_, ?_, ?_⟩
  · intro e he
    cases e with
    | get k => exact List.prefix_refl _
    | set k v t => exact List.prefix_append _ _
    | has k => exact List.prefix_refl _
    | delete k => exact List.prefix_refl _
    | size => exact List.prefix_refl _
    | getStats => exact List.prefix_refl _
    | fire q => exact absurd rfl (he q)
  · intro hr
    rw [step_fire_of_mem s r hr]
    have hpos : 0 < s.pending.length := List.length_pos_of_mem hr
    have hcount : 0 < s.pending.count r := List.count_pos_iff.mpr hr
    refine ⟨rfl, ?_, ?_⟩
    · simp only [List.length_erase_of_mem hr]
      omega
    · simp only [List.count_erase_self]
      omega
  · intro hr habs
    rw [step_fire_of_mem s r hr]
    exact Delete_data_of_absent s.cache r.key habs

/-- Witness of C14: `Set` with a TTL, an explicit `Delete`, then the removal fires. -/
theorem removal_scheduling_witness :
    (System.init.step (.set (GoString.lit "k") (GoString.lit "v") 5)).pending
      = [⟨GoString.lit "k", 5⟩] ∧
    (System.init.step (.set (GoString.lit "k") (GoString.lit "v") 0)).pending = [] ∧
    ((System.init.run [Event.set (GoString.lit "k") (GoString.lit "v") 5,
        Event.delete (GoString.lit "k")]).step (.fire ⟨GoString.lit "k", 5⟩)).cache.data
      = (System.init.run [Event.set (GoString.lit "k") (GoString.lit "v") 5,
        Event.delete (GoString.lit "k")]).cache.data ∧
    ((System.init.run [Event.set (GoString.lit "k") (GoString.lit "v") 5,
        Event.delete (GoString.lit "k")]).step (.fire ⟨GoString.lit "k", 5⟩)).pending
      = [] :=
  ⟨(removal_scheduling System.init (GoString.lit "k") (GoString.lit "v") 5
      ⟨GoString.lit "k", 5⟩).1 (by decide),
    (removal_scheduling System.init (GoString.lit "k") (GoString.lit "v") 0
      ⟨GoString.lit "k", 5⟩).2.1 (by decide),
    (removal_scheduling
      (System.init.run [Event.set (GoString.lit "k") (GoString.lit "v") 5,
        Event.delete (GoString.lit "k")])
      (GoString.lit "k") (GoString.lit "v") 5 ⟨GoString.lit "k", 5⟩).2.2.2.2.2.2.2.2.2
      (by decide) (by decide),
    ((removal_scheduling
      (System.init.run [Event.set (GoString.lit "k") (GoString.lit "v") 5,
        Event.delete (GoString.lit "k")])
      (GoString.lit "k") (GoString.lit "v") 5 ⟨GoString.lit "k", 5⟩).2.2.2.2.2.2.2.2.1
      (by decide)).1.trans (by decide)⟩

/-- C15 (key independence). For every state and distinct keys `k` and `k2`, each
operation on `k` (`Get`, `Set`, `Has`, `Delete`, the firing of a removal scheduled for
`k`) leaves the binding of `k2` unchanged, so `Has(k2)` and `Get(k2)` return the same
results before and after. -/
theorem key_independence (s : System) (k k2 value : GoString) (ttl : Duration)
    (hk : k ≠ k2) :
    ∀ e ∈ [Event.get k, Event.set k value ttl, Event.has k, Event.delete k,
        Event.fire ⟨k, ttl⟩],
      (s.step e).cache.data.lookup k2 = s.cache.data.lookup k2 ∧
      ((s.step e).cache.Has k2).2 = (s.cache.Has k2).2 ∧
      ((s.step e).cache.Get k2).2 = (s.cache.Get k2).2 := by
  intro e he
  have hl : (s.step e).cache.data.lookup k2 = s.cache.data.lookup k2 := by
    simp only [List.mem_cons, List.mem_singleton, List.not_mem_nil, or_false] at he
    rcases he with he | he | he | he | he <;> subst he <;>
      apply step_lookup_frame <;> simp [Event.setsKey, Event.deletesKey, Event.firesKey, hk]
  refine ⟨hl, ?_, ?_⟩
  · rw [Has_eq, Has_eq, hl]
  · rw [Get_snd_eq, Get_snd_eq, hl]

/-- Witness of C15: keys "1" and "2" of `TestE2EIntegration`; deleting "1" leaves "2". -/
theorem key_independence_witness :
    (((System.init.run [Event.set (GoString.lit "1") (GoString.lit "one") 0,
        Event.set (GoString.lit "2") (GoString.lit "two") 0]).step
        (.delete (GoString.lit "1"))).cache.Get (GoString.lit "2")).2
      = (some (GoString.lit "two").bytes, none) :=
  ((key_independence
    (System.init.run [Event.set (GoString.lit "1") (GoString.lit "one") 0,
      Event.set (GoString.lit "2") (GoString.lit "two") 0])
    (GoString.lit "1") (GoString.lit "2") (GoString.lit "one") 0 (by decide)
    (.delete (GoString.lit "1")) (by decide)).2.2).trans (by decide)

/-- C16 (Size counts entries). In every cache state `Size()` is the number of distinct
keys on which `Has` returns true; it is 0 on `New()`; `Set` raises it by one on an absent
key and keeps it on a present key; `Delete` lowers it by one on a present key and keeps
it on an absent key. -/
theorem size_counts_entries (c : Cache) (key value : GoString) (ttl : Duration) :
    c.Size = c.data.keys.toFinset.card ∧
    (∀ k : GoString, k ∈ c.data.keys.toFinset ↔ (c.Has k).2 = true) ∧
    New.Size = 0 ∧
    ((c.Has key).2 = false → (c.Set key value ttl).1.Size = c.Size + 1) ∧
    ((c.Has key).2 = true → (c.Set key value ttl).1.Size = c.Size) ∧
    ((c.Has key).2 = true → (c.Delete key).Size + 1 = c.Size) ∧
    ((c.Has key).2 = false → (c.Delete key).Size = c.Size) := by
  refine ⟨?_, ?_, rfl, ?_, ?_, ?_, ?_⟩
  · rw [Size_eq_keys_length, List.toFinset_card_of_nodup (AList.keys_nodup c.data)]
  · intro k
    rw [List.mem_toFinset]
    exact mem_keys_iff_Has c k
  · intro h
    have hk : key ∉ c.data.keys := by
      rw [mem_keys_iff_Has, h]
      simp
    rw [Size_Set, if_neg hk]
  · intro h
    have hk : key ∈ c.data.keys := (mem_keys_iff_Has c key).mpr h
    rw [Size_Set, if_pos hk]
  · intro h
    have hk : key ∈ c.data.keys := (mem_keys_iff_Has c key).mpr h
    have hpos : 0 < c.Size := by
      rw [Size_eq_keys_length]
      exact List.length_pos_of_mem hk
    rw [Size_Delete, if_pos hk]
    omega
  · intro h
    have hk : key ∉ c.data.keys := by
      rw [mem_keys_iff_Has, h]
      simp
    rw [Size_Delete, if_neg hk]

/-- Witness of C16: sizes along `Set`, `Set` again, `Delete`, `Delete` again on `New()`. -/
theorem size_counts_entries_witness :
    (New.Set (GoString.lit "k") (GoString.lit "v") 0).1.Size = New.Size + 1 ∧
    ((New.Set (GoString.lit "k") (GoString.lit "v") 0).1.Set (GoString.lit "k")
        (GoString.lit "w") 0).1.Size = (New.Set (GoString.lit "k") (GoString.lit "v") 0).1.Size ∧
    ((New.Set (GoString.lit "k") (GoString.lit "v") 0).1.Delete (GoString.lit "k")).Size + 1
      = (New.Set (GoString.lit "k") (GoString.lit "v") 0).1.Size ∧
    (New.Delete (GoString.lit "k")).Size = New.Size :=
  ⟨(size_counts_entries New (GoString.lit "k") (GoString.lit "v") 0).2.2.2.1 (by decide),
    (size_counts_entries (New.Set (GoString.lit "k") (GoString.lit "v") 0).1
      (GoString.lit "k") (GoString.lit "w") 0).2.2.2.2.1 (by decide),
    (size_counts_entries (New.Set (GoString.lit "k") (GoString.lit "v") 0).1
      (GoString.lit "k") (GoString.lit "w") 0).2.2.2.2.2.1 (by decide),
    (size_counts_entries New (GoString.lit "k") (GoString.lit "v") 0).2.2.2.2.2.2
      (by decide)⟩

/-- C17 fails on the code: the index of `launchRequests` is `rand.Intn(numRequests - 1)`,
a value of `[0, 2)`, so every draw issues `Get` or `Has` (each for some draw) and no
draw issues `Delete` or ends in the panic. -/
theorem launchRequests_never_deletes (keyStr : GoString) (draw : Nat) :
    (launchRequests keyStr draw = some (.get keyStr) ∨
      launchRequests keyStr draw = some (.has keyStr)) ∧
    (∀ k : GoString, launchRequests keyStr draw ≠ some (.delete k)) ∧
    randIntn (numRequests - 1) draw < 2 ∧
    launchRequests keyStr 0 = some (.get keyStr) ∧
    launchRequests keyStr 1 = some (.has keyStr) := by
  have h : draw % 2 = 0 ∨ draw % 2 = 1 := by omega
  have hcases : launchRequests keyStr draw = some (.get keyStr) ∨
      launchRequests keyStr draw = some (.has keyStr) := by
    rcases h with h | h
    · left
      simp only [launchRequests, randIntn, numRequests, h]
      rfl
    · right
      simp only [launchRequests, randIntn, numRequests, h]
      rfl
  refine ⟨hcases, ?_, ?_, rfl, rfl⟩
  · intro k hk
    rcases hcases with h1 | h1
    · rw [h1] at hk
      cases hk
    · rw [h1] at hk
      cases hk
  · simp only [randIntn, numRequests]
    omega

/-- C18 (expirations are counted as deletes). The firing of a pending removal applies
`++` to `NumDeletes` and changes no other counter, whether or not its key is present; on
a cache from `New()`, one `Set` with `ttl > 0` followed by the firing of its removal
gives `GetStats()` with `NumDeletes = 1`, `NumSets = 1` and `TotalOperations = 2`. -/
theorem expiration_counts_as_delete (s : System) (r : Removal) (key value : GoString)
    (ttl : Duration) :
    (r ∈ s.pending →
      (s.step (.fire r)).cache.stats
        = { s.cache.stats with NumDeletes := uintIncr s.cache.stats.NumDeletes }) ∧
    (r ∈ s.pending → s.cache.stats.NumDeletes + 1 < 2 ^ 64 →
      (s.step (.fire r)).cache.stats.NumDeletes = s.cache.stats.NumDeletes + 1) ∧
    (0 < ttl →
      System.init.Schedule [Event.set key value ttl, Event.fire ⟨key, ttl⟩] = true ∧
      ((System.init.run [Event.set key value ttl, Event.fire ⟨key, ttl⟩]).cache.GetStats).2
        = { TotalOperations := 2, NumGets := 0, NumSets := 1, NumHasChecks := 0,
            NumDeletes := 1 }) := by
  refine ⟨?_, ?_, ?_⟩
  · intro hr
    rw [step_fire_of_mem s r hr]
    rfl
  · intro hr hlt
    rw [step_fire_of_mem s r hr]
    exact Nat.mod_eq_of_lt hlt
  · intro httl
    have hp : (System.init.step (.set key value ttl)).pending = [⟨key, ttl⟩] := by
      rw [step_set_pending_pos System.init key value ttl httl]
      rfl
    have hmem : (⟨key, ttl⟩ : Removal) ∈ (System.init.step (.set key value ttl)).pending := by
      rw [hp]
      exact List.mem_singleton.mpr rfl
    constructor
    · simp only [System.Schedule, Bool.true_and, Bool.and_true, decide_eq_true_eq]
      exact hmem
    · simp only [System.run]
      rw [step_fire_of_mem _ _ hmem]
      simp only [Cache.GetStats, Delete_stats, System.step, Set_stats, System.init, New,
        uintIncr, uintAdd, uintSize]
      decide

/-- Witness of C18: the removal of a `Set` with the TTL of the tests fires on `New()`. -/
theorem expiration_counts_as_delete_witness :
    ((System.init.run [Event.set (GoString.lit "testKey") (GoString.lit "testValue")
        200000000, Event.fire ⟨GoString.lit "testKey", 200000000⟩]).cache.GetStats).2
      = { TotalOperations := 2, NumGets := 0, NumSets := 1, NumHasChecks := 0,
          NumDeletes := 1 } ∧
    ((System.init.run [Event.set (GoString.lit "k") (GoString.lit "v") 5,
        Event.delete (GoString.lit "k")]).step
        (.fire ⟨GoString.lit "k", 5⟩)).cache.stats.NumDeletes = 2 :=
  ⟨((expiration_counts_as_delete System.init ⟨GoString.lit "testKey", 200000000⟩
      (GoString.lit "testKey") (GoString.lit "testValue") 200000000).2.2 (by decide)).2,
    ((expiration_counts_as_delete
      (System.init.run [Event.set (GoString.lit "k") (GoString.lit "v") 5,
        Event.delete (GoString.lit "k")])
      ⟨GoString.lit "k", 5⟩ (GoString.lit "k") (GoString.lit "v") 5).2.1
      (by decide) (by decide)).trans (by decide)⟩

/-- C19 (Has agrees with Get). For every cache state and key, `Has(key)` is true exactly
when `Get(key)` on the same store returns a nil error; then `Get` returns the bytes of
the stored value, which after any run from `New()` is the value of the last `Set` on
the key. -/
theorem has_agrees_with_get (c : Cache) (key : GoString) (es : List Event) :
    ((c.Has key).2 = true ↔ (c.Get key).2.2 = none) ∧
    ((c.Has key).2 = true →
      ∃ v : GoString, c.data.lookup key = some v ∧ (c.Get key).2 = (some v.bytes, none)) ∧
    (((System.init.run es).cache.Has key).2 = true →
      ∃ v : GoString, lastSetValue key es = some v ∧
        ((System.init.run es).cache.Get key).2 = (some v.bytes, none)) := by
  refine ⟨?_, ?_, ?_⟩
  · rw [Has_eq, Get_snd_eq]
    cases c.data.lookup key <;> simp
  · intro h
    rw [Has_eq] at h
    cases hl : c.data.lookup key with
    | none => rw [hl] at h; cases h
    | some v => exact ⟨v, rfl, Get_of_lookup_some c key v hl⟩
  · intro h
    rw [Has_eq] at h
    cases hl : (System.init.run es).cache.data.lookup key with
    | none => rw [hl] at h; cases h
    | some v =>
        refine ⟨v, ?_, Get_of_lookup_some _ key v hl⟩
        rcases run_lookup_cases System.init key es with h2 | h2
        · rw [hl] at h2
          cases h2
        · rw [hl] at h2
          cases hs : lastSetValue key es with
          | none =>
              rw [hs] at h2
              simp [System.init, New] at h2
          | some w =>
              rw [hs] at h2
              simp only at h2
              exact h2.symm

/-- Witness of C19: after two `Set`s on a key, `Get` returns the second value. -/
theorem has_agrees_with_get_witness :
    ((System.init.run [Event.set (GoString.lit "k") (GoString.lit "v1") 0,
        Event.set (GoString.lit "k") (GoString.lit "v2") 5]).cache.Has
        (GoString.lit "k")).2 = true ∧
    ∃ v : GoString,
      lastSetValue (GoString.lit "k") [Event.set (GoString.lit "k") (GoString.lit "v1") 0,
        Event.set (GoString.lit "k") (GoString.lit "v2") 5] = some v ∧
      ((System.init.run [Event.set (GoString.lit "k") (GoString.lit "v1") 0,
        Event.set (GoString.lit "k") (GoString.lit "v2") 5]).cache.Get
        (GoString.lit "k")).2 = (some v.bytes, none) :=
  ⟨by decide,
    (has_agrees_with_get New (GoString.lit "k")
      [Event.set (GoString.lit "k") (GoString.lit "v1") 0,
        Event.set (GoString.lit "k") (GoString.lit "v2") 5]).2.2 (by decide)⟩

/-- C20 (GetStats is a read for its callers). For every state `GetStats()` leaves the map,
the pending removals and the four operation counters unchanged (it writes only the stored
total), a second `GetStats()` right after returns the same snapshot and leaves the state
as the first left it, and `Size()` changes nothing. -/
theorem getStats_is_read (s : System) :
    (s.step .getStats).cache.data = s.cache.data ∧
    (s.step .getStats).pending = s.pending ∧
    (s.step .getStats).cache.stats.NumGets = s.cache.stats.NumGets ∧
    (s.step .getStats).cache.stats.NumSets = s.cache.stats.NumSets ∧
    (s.step .getStats).cache.stats.NumHasChecks = s.cache.stats.NumHasChecks ∧
    (s.step .getStats).cache.stats.NumDeletes = s.cache.stats.NumDeletes ∧
    (s.step .getStats).cache.GetStats.2 = s.cache.GetStats.2 ∧
    (s.step .getStats).cache.GetStats.1.stats = (s.step .getStats).cache.stats ∧
    (s.step .getStats).cache.GetStats.1.data = (s.step .getStats).cache.data ∧
    s.step .size = s := by
  exact ⟨rfl, rfl, rfl, rfl, rfl, rfl, rfl, rfl, rfl, rfl⟩

end GoCache
